import Mathlib

/-!
Verification of the core computation of `src/main.py`: three dollar-cost-averaging
allocation strategies (ATH-distance, market-cap-proportional, equal-weight) that
split a fixed monthly budget between two assets over an aligned monthly price
series.  Prices and weights are modelled as exact rationals; the month-by-month
accumulation loop is a fold over the step data.
-/

/-- Helper for the running maximum: `accumMax m ps` maps each element of `ps`
to the maximum of `m` and all elements up to and including it. -/
def accumMax (m : ℚ) : List ℚ → List ℚ
  | [] => []
  | p :: ps => max m p :: accumMax (max m p) ps

/-- Running all-time high of a price list; models `np.maximum.accumulate`
(lines 29-30 of `src/main.py`). -/
def athAcc : List ℚ → List ℚ
  | [] => []
  | p :: ps => p :: accumMax p ps

/-- Maximum of a list, `0` on the empty list; used only to state the
specification `output[i] = max(input[0..i])`. -/
def listMax : List ℚ → ℚ
  | [] => 0
  | p :: ps => ps.foldl max p

/-- The small positive epsilon `1e-12` added to the ATH denominator
(line 53 of `src/main.py`). -/
def eps : ℚ := 1 / 1000000000000

/-- `120_000_000 / 19_700_000`, the fixed ETH/BTC circulating-supply ratio
(line 33 of `src/main.py`). -/
def supply_ratio_eth_to_btc : ℚ := 120000000 / 19700000

/-- The default monthly budget (line 36 of `src/main.py`). -/
def monthly_budget : ℚ := 500

/-- All data the loop body reads at one step `i`: the two current prices and
the two running-ATH values. -/
structure StepData where
  p_btc : ℚ
  p_eth : ℚ
  ath_btc : ℚ
  ath_eth : ℚ
deriving DecidableEq, Repr

/-- `dist_btc = 1 - p_btc / btc_ath[i]` (line 51). -/
def dist_btc (d : StepData) : ℚ := 1 - d.p_btc / d.ath_btc

/-- `dist_eth = 1 - p_eth / eth_ath[i]` (line 52). -/
def dist_eth (d : StepData) : ℚ := 1 - d.p_eth / d.ath_eth

/-- `total_dist = dist_btc + dist_eth + 1e-12` (line 53). -/
def total_dist (d : StepData) : ℚ := dist_btc d + dist_eth d + eps

/-- ATH-strategy weight pair `(w_btc_ath, w_eth_ath)` (lines 54-55). -/
def athWeights (d : StepData) : ℚ × ℚ :=
  (dist_btc d / total_dist d, dist_eth d / total_dist d)

/-- `mc_ratio = (p_eth * supply_ratio_eth_to_btc) / p_btc` (line 61). -/
def mc_ratio (d : StepData) : ℚ := d.p_eth * supply_ratio_eth_to_btc / d.p_btc

/-- Market-cap-strategy weight pair `(w_btc_mc, w_eth_mc)` (lines 62-63). -/
def mcWeights (d : StepData) : ℚ × ℚ :=
  (1 / (1 + mc_ratio d), 1 - 1 / (1 + mc_ratio d))

/-- Equal-weight pair `(0.5, 0.5)` (lines 69-70). -/
def eqWeights (_ : StepData) : ℚ × ℚ := (1 / 2, 1 / 2)

/-- Cumulative holdings of the two assets for one strategy. -/
structure Holding where
  btc : ℚ
  eth : ℚ
deriving DecidableEq, Repr

/-- One month's purchase: `qty += (budget * weight) / price` for each asset
(lines 57-58, 65-66, 69-70). -/
def buy (B : ℚ) (w : ℚ × ℚ) (d : StepData) (h : Holding) : Holding :=
  ⟨h.btc + B * w.1 / d.p_btc, h.eth + B * w.2 / d.p_eth⟩

/-- Portfolio value at current prices: `qty_btc * p_btc + qty_eth * p_eth`
(lines 73-75). -/
def valueAt (h : Holding) (d : StepData) : ℚ := h.btc * d.p_btc + h.eth * d.p_eth

/-- One strategy's simulation loop: at each step buy according to the weight
function, then record the post-purchase holding and portfolio value. -/
def runStrategy (w : StepData → ℚ × ℚ) (B : ℚ) : Holding → List StepData → List (Holding × ℚ)
  | _, [] => []
  | h, d :: ds =>
    let h' := buy B (w d) d h
    (h', valueAt h' d) :: runStrategy w B h' ds

/-- Zip the two price lists and two ATH lists into per-step data. -/
def stepsOf : List ℚ → List ℚ → List ℚ → List ℚ → List StepData
  | pb :: pbs, pe :: pes, ab :: abs, ae :: aes =>
    ⟨pb, pe, ab, ae⟩ :: stepsOf pbs pes abs aes
  | _, _, _, _ => []

/-- The step data of a price series, with the ATH lists derived by `athAcc`. -/
def mkSteps (pbs pes : List ℚ) : List StepData :=
  stepsOf pbs pes (athAcc pbs) (athAcc pes)

/-- Run one strategy over a price series starting from zero holdings
(lines 40-41: holdings start at `0.0`). -/
def simulate (w : StepData → ℚ × ℚ) (B : ℚ) (pbs pes : List ℚ) : List (Holding × ℚ) :=
  runStrategy w B ⟨0, 0⟩ (mkSteps pbs pes)

/-- The recorded portfolio-value series of one strategy. -/
def valueSeries (w : StepData → ℚ × ℚ) (B : ℚ) (pbs pes : List ℚ) : List ℚ :=
  (simulate w B pbs pes).map Prod.snd

/-- A valid input series: equal lengths and all prices positive. -/
def validSeries (pbs pes : List ℚ) : Prop :=
  pbs.length = pes.length ∧ (∀ p ∈ pbs, 0 < p) ∧ (∀ p ∈ pes, 0 < p)

instance (pbs pes : List ℚ) : Decidable (validSeries pbs pes) := by
  unfold validSeries; infer_instance

-- ### Running-maximum lemmas

theorem accumMax_length (m : ℚ) (ps : List ℚ) : (accumMax m ps).length = ps.length := by
  induction ps generalizing m with
  | nil => rfl
  | cons p ps ih => simp [accumMax, ih]

theorem athAcc_length (ps : List ℚ) : (athAcc ps).length = ps.length := by
  cases ps with
  | nil => rfl
  | cons p ps => simp [athAcc, accumMax_length]

theorem accumMax_get (m : ℚ) (ps : List ℚ) (i : ℕ) (hi : i < (accumMax m ps).length) :
    (accumMax m ps).get ⟨i, hi⟩ = (ps.take (i + 1)).foldl max m := by
  induction ps generalizing m i with
  | nil => simp [accumMax] at hi
  | cons p ps ih =>
    cases i with
    | zero => simp [accumMax]
    | succ i => simpa [accumMax] using ih (max m p) i (by simpa [accumMax] using hi)

theorem foldl_max_init (m : ℚ) (l : List ℚ) : m ≤ l.foldl max m := by
  induction l generalizing m with
  | nil => simp
  | cons x l ih => exact le_trans (le_max_left m x) (ih (max m x))

theorem le_foldl_max (m a : ℚ) (l : List ℚ) (ha : a ∈ l) : a ≤ l.foldl max m := by
  induction l generalizing m with
  | nil => simp at ha
  | cons x l ih =>
    simp only [List.foldl_cons]
    rcases List.mem_cons.mp ha with h | h
    · subst h
      exact le_trans (le_max_right m a) (foldl_max_init (max m a) l)
    · exact ih (max m x) h

theorem athAcc_get (ps : List ℚ) (i : ℕ) (hi : i < (athAcc ps).length) :
    (athAcc ps).get ⟨i, hi⟩ = listMax (ps.take (i + 1)) := by
  cases ps with
  | nil => simp [athAcc] at hi
  | cons p ps =>
    cases i with
    | zero => simp [athAcc, listMax]
    | succ i =>
      have hi2 : i < (accumMax p ps).length := by
        have h := hi; simp [athAcc] at h; omega
      have hstep : (athAcc (p :: ps)).get ⟨i + 1, hi⟩ = (accumMax p ps).get ⟨i, hi2⟩ := rfl
      rw [hstep, accumMax_get, List.take_succ_cons, listMax]

theorem accumMax_chain (m : ℚ) (ps : List ℚ) :
    List.Chain' (· ≤ ·) (m :: accumMax m ps) := by
  induction ps generalizing m with
  | nil => simp [accumMax]
  | cons p ps ih =>
    simp only [accumMax]
    exact List.chain'_cons.mpr ⟨le_max_left m p, ih (max m p)⟩

theorem athAcc_chain (ps : List ℚ) : List.Chain' (· ≤ ·) (athAcc ps) := by
  cases ps with
  | nil => simp [athAcc]
  | cons p ps => exact accumMax_chain p ps

theorem athAcc_mono (ps : List ℚ) (i j : ℕ) (hij : i ≤ j) (hj : j < (athAcc ps).length) :
    (athAcc ps).get ⟨i, lt_of_le_of_lt hij hj⟩ ≤ (athAcc ps).get ⟨j, hj⟩ := by
  rcases eq_or_lt_of_le hij with h | h
  · subst h; exact le_refl _
  · have hp := List.chain'_iff_pairwise.mp (athAcc_chain ps)
    exact List.pairwise_iff_get.mp hp ⟨i, lt_of_le_of_lt hij hj⟩ ⟨j, hj⟩ h

-- ### Claim C3

/-- C3: for every non-empty sequence of positive prices, the running-ATH output
has the same length as the input, its element at each index `i` is the maximum
of the inputs at indices `0..i` inclusive, it is monotonically non-decreasing,
and its first element equals the first input. -/
theorem C3_athAcc_spec (ps : List ℚ) (hne : ps ≠ []) (hpos : ∀ p ∈ ps, 0 < p) :
    (athAcc ps).length = ps.length ∧
    (∀ (i : ℕ) (hi : i < (athAcc ps).length),
      (athAcc ps).get ⟨i, hi⟩ = listMax (ps.take (i + 1))) ∧
    (∀ (i j : ℕ) (hij : i ≤ j) (hj : j < (athAcc ps).length),
      (athAcc ps).get ⟨i, lt_of_le_of_lt hij hj⟩ ≤ (athAcc ps).get ⟨j, hj⟩) ∧
    (athAcc ps).head? = ps.head? := by
  refine ⟨athAcc_length ps, athAcc_get ps, athAcc_mono ps, ?_⟩
  cases ps with
  | nil => rfl
  | cons p ps => rfl

/-- Witness for C3 at the concrete series `[2, 1, 3]`. -/
theorem C3_athAcc_spec_witness :
    (([2, 1, 3] : List ℚ) ≠ [] ∧ (∀ p ∈ ([2, 1, 3] : List ℚ), 0 < p)) ∧
    ((athAcc [2, 1, 3]).length = ([2, 1, 3] : List ℚ).length ∧
      (∀ (i : ℕ) (hi : i < (athAcc [2, 1, 3]).length),
        (athAcc [2, 1, 3]).get ⟨i, hi⟩ = listMax (([2, 1, 3] : List ℚ).take (i + 1))) ∧
      (∀ (i j : ℕ) (hij : i ≤ j) (hj : j < (athAcc [2, 1, 3]).length),
        (athAcc [2, 1, 3]).get ⟨i, lt_of_le_of_lt hij hj⟩ ≤
          (athAcc [2, 1, 3]).get ⟨j, hj⟩) ∧
      (athAcc [2, 1, 3]).head? = ([2, 1, 3] : List ℚ).head?) :=
  ⟨⟨by decide, by decide⟩, C3_athAcc_spec [2, 1, 3] (by decide) (by decide)⟩

-- ### Step-data facts

theorem stepsOf_mem_accum (pbs : List ℚ) : ∀ (pes : List ℚ) (mb me : ℚ),
    (∀ p ∈ pbs, 0 < p) → (∀ p ∈ pes, 0 < p) → 0 < mb → 0 < me →
    ∀ d ∈ stepsOf pbs pes (accumMax mb pbs) (accumMax me pes),
      0 < d.p_btc ∧ 0 < d.p_eth ∧ d.p_btc ≤ d.ath_btc ∧ d.p_eth ≤ d.ath_eth := by
  induction pbs with
  | nil =>
    intro pes mb me _ _ _ _ d hd
    simp [accumMax, stepsOf] at hd
  | cons pb pbs ih =>
    intro pes mb me hb he hmb hme d hd
    cases pes with
    | nil => simp [accumMax, stepsOf] at hd
    | cons pe pes =>
      simp only [accumMax, stepsOf, List.mem_cons] at hd
      rcases hd with hd | hd
      · subst hd
        exact ⟨hb pb (by simp), he pe (by simp), le_max_right mb pb, le_max_right me pe⟩
      · exact ih pes (max mb pb) (max me pe)
          (fun p hp => hb p (List.mem_cons_of_mem _ hp))
          (fun p hp => he p (List.mem_cons_of_mem _ hp))
          (lt_of_lt_of_le hmb (le_max_left mb pb))
          (lt_of_lt_of_le hme (le_max_left me pe)) d hd

theorem mkSteps_mem {pbs pes : List ℚ} (hb : ∀ p ∈ pbs, 0 < p) (he : ∀ p ∈ pes, 0 < p)
    (d : StepData) (hd : d ∈ mkSteps pbs pes) :
    0 < d.p_btc ∧ 0 < d.p_eth ∧ d.p_btc ≤ d.ath_btc ∧ d.p_eth ≤ d.ath_eth ∧
    0 < d.ath_btc ∧ 0 < d.ath_eth := by
  cases pbs with
  | nil => simp [mkSteps, athAcc, stepsOf] at hd
  | cons pb pbs =>
    cases pes with
    | nil => simp [mkSteps, athAcc, stepsOf] at hd
    | cons pe pes =>
      simp only [mkSteps, athAcc, stepsOf, List.mem_cons] at hd
      rcases hd with hd | hd
      · subst hd
        exact ⟨hb pb (by simp), he pe (by simp), le_refl _, le_refl _,
          hb pb (by simp), he pe (by simp)⟩
      · obtain ⟨h1, h2, h3, h4⟩ := stepsOf_mem_accum pbs pes pb pe
          (fun p hp => hb p (List.mem_cons_of_mem _ hp))
          (fun p hp => he p (List.mem_cons_of_mem _ hp))
          (hb pb (by simp)) (he pe (by simp)) d hd
        exact ⟨h1, h2, h3, h4, lt_of_lt_of_le h1 h3, lt_of_lt_of_le h2 h4⟩

-- ### Weight arithmetic

theorem eps_pos : 0 < eps := by norm_num [eps]

theorem dist_btc_nonneg (d : StepData) (ha : 0 < d.ath_btc) (hle : d.p_btc ≤ d.ath_btc) :
    0 ≤ dist_btc d := by
  have : d.p_btc / d.ath_btc ≤ 1 := (div_le_one ha).mpr hle
  unfold dist_btc; linarith

theorem dist_eth_nonneg (d : StepData) (ha : 0 < d.ath_eth) (hle : d.p_eth ≤ d.ath_eth) :
    0 ≤ dist_eth d := by
  have : d.p_eth / d.ath_eth ≤ 1 := (div_le_one ha).mpr hle
  unfold dist_eth; linarith

theorem total_dist_pos (d : StepData) (h1 : 0 ≤ dist_btc d) (h2 : 0 ≤ dist_eth d) :
    0 < total_dist d := by
  have := eps_pos
  unfold total_dist; linarith

theorem supply_ratio_pos : 0 < supply_ratio_eth_to_btc := by
  norm_num [supply_ratio_eth_to_btc]

theorem mc_ratio_pos (d : StepData) (hb : 0 < d.p_btc) (he : 0 < d.p_eth) :
    0 < mc_ratio d :=
  div_pos (mul_pos he supply_ratio_pos) hb

-- ### Claim C1

/-- The constant valid series used as a concrete counterexample input. -/
def cexSeries : List ℚ := List.replicate 12 1

/-- C1 as stated is false: `[1,1,...,1]` (12 points) is a valid series whose
first step has both assets at their running ATH, and there the ATH-strategy
weights are `(0, 0)` — their sum `0` is not within `1e-9` of `1`. -/
theorem C1_counterexample :
    validSeries cexSeries cexSeries ∧
    (⟨1, 1, 1, 1⟩ : StepData) ∈ mkSteps cexSeries cexSeries ∧
    athWeights ⟨1, 1, 1, 1⟩ = (0, 0) ∧
    ¬ |(athWeights ⟨1, 1, 1, 1⟩).1 + (athWeights ⟨1, 1, 1, 1⟩).2 - 1| ≤ 1 / 10 ^ 9 := by
  refine ⟨by decide, by decide, ?_, ?_⟩
  · simp [athWeights, dist_btc, dist_eth]
  · norm_num [athWeights, dist_btc, dist_eth, total_dist, eps]

/-- C1 (amended): at every step of a valid price series all six strategy
weights are non-negative; the market-cap and equal-weight pairs sum exactly
to 1; the ATH pair sums to at most 1, and its sum is within 1e-9 of 1 at
every step whose total ATH distance is at least 1e-3 (when both assets sit at
their ATH the ATH weight sum is 0, so the original tolerance bound fails). -/
theorem C1_amended (pbs pes : List ℚ) (hv : validSeries pbs pes)
    (d : StepData) (hd : d ∈ mkSteps pbs pes) :
    (0 ≤ (athWeights d).1 ∧ 0 ≤ (athWeights d).2 ∧
      (athWeights d).1 + (athWeights d).2 ≤ 1 ∧
      (1 / 10 ^ 3 ≤ dist_btc d + dist_eth d →
        |(athWeights d).1 + (athWeights d).2 - 1| ≤ 1 / 10 ^ 9)) ∧
    (0 ≤ (mcWeights d).1 ∧ 0 ≤ (mcWeights d).2 ∧
      (mcWeights d).1 + (mcWeights d).2 = 1) ∧
    (0 ≤ (eqWeights d).1 ∧ 0 ≤ (eqWeights d).2 ∧
      (eqWeights d).1 + (eqWeights d).2 = 1) := by
  obtain ⟨hpb, hpe, hlb, hlee, hab, hae⟩ := mkSteps_mem hv.2.1 hv.2.2 d hd
  have hdb : 0 ≤ dist_btc d := dist_btc_nonneg d hab hlb
  have hde : 0 ≤ dist_eth d := dist_eth_nonneg d hae hlee
  have heps : 0 < eps := eps_pos
  have htd : 0 < total_dist d := total_dist_pos d hdb hde
  have hw1 : (athWeights d).1 = dist_btc d / total_dist d := rfl
  have hw2 : (athWeights d).2 = dist_eth d / total_dist d := rfl
  have hsum : (athWeights d).1 + (athWeights d).2 =
      (dist_btc d + dist_eth d) / total_dist d := by
    rw [hw1, hw2, div_add_div_same]
  have htdle : dist_btc d + dist_eth d ≤ total_dist d := by
    unfold total_dist; linarith
  refine ⟨⟨?_, ?_, ?_, ?_⟩, ?_, ?_⟩
  · rw [hw1]; exact div_nonneg hdb htd.le
  · rw [hw2]; exact div_nonneg hde htd.le
  · rw [hsum]; exact (div_le_one htd).mpr htdle
  · intro hbig
    rw [hsum]
    have hne : total_dist d ≠ 0 := ne_of_gt htd
    have hform : (dist_btc d + dist_eth d) / total_dist d - 1 = -(eps / total_dist d) := by
      field_simp
      unfold total_dist
      ring
    rw [hform, abs_neg, abs_of_nonneg (div_nonneg heps.le htd.le)]
    have htdge : 1 / 10 ^ 3 ≤ total_dist d := by
      unfold total_dist; linarith
    calc eps / total_dist d ≤ eps / (1 / 10 ^ 3) := by gcongr
      _ = 1 / 10 ^ 9 := by norm_num [eps]
  · have hmc : 0 < mc_ratio d := mc_ratio_pos d hpb hpe
    have h1mc : (0 : ℚ) < 1 + mc_ratio d := by linarith
    have hb1 : (mcWeights d).1 = 1 / (1 + mc_ratio d) := rfl
    have hb2 : (mcWeights d).2 = 1 - 1 / (1 + mc_ratio d) := rfl
    have hble : 1 / (1 + mc_ratio d) ≤ 1 := by
      rw [div_le_one h1mc]; linarith
    refine ⟨?_, ?_, ?_⟩
    · rw [hb1]; positivity
    · rw [hb2]; linarith
    · rw [hb1, hb2]; ring
  · refine ⟨by norm_num [eqWeights], by norm_num [eqWeights], by norm_num [eqWeights]⟩

/-- Witness for the amended C1 at the valid series `[4, 2]`, `[4, 1]` and its
second step `⟨2, 1, 4, 4⟩`. -/
theorem C1_amended_witness :
    (validSeries [4, 2] [4, 1] ∧ (⟨2, 1, 4, 4⟩ : StepData) ∈ mkSteps [4, 2] [4, 1]) ∧
    ((0 ≤ (athWeights ⟨2, 1, 4, 4⟩).1 ∧ 0 ≤ (athWeights ⟨2, 1, 4, 4⟩).2 ∧
      (athWeights ⟨2, 1, 4, 4⟩).1 + (athWeights ⟨2, 1, 4, 4⟩).2 ≤ 1 ∧
      (1 / 10 ^ 3 ≤ dist_btc ⟨2, 1, 4, 4⟩ + dist_eth ⟨2, 1, 4, 4⟩ →
        |(athWeights ⟨2, 1, 4, 4⟩).1 + (athWeights ⟨2, 1, 4, 4⟩).2 - 1| ≤ 1 / 10 ^ 9)) ∧
    (0 ≤ (mcWeights ⟨2, 1, 4, 4⟩).1 ∧ 0 ≤ (mcWeights ⟨2, 1, 4, 4⟩).2 ∧
      (mcWeights ⟨2, 1, 4, 4⟩).1 + (mcWeights ⟨2, 1, 4, 4⟩).2 = 1) ∧
    (0 ≤ (eqWeights ⟨2, 1, 4, 4⟩).1 ∧ 0 ≤ (eqWeights ⟨2, 1, 4, 4⟩).2 ∧
      (eqWeights ⟨2, 1, 4, 4⟩).1 + (eqWeights ⟨2, 1, 4, 4⟩).2 = 1)) :=
  ⟨⟨by decide, by decide⟩,
    C1_amended [4, 2] [4, 1] (by decide) ⟨2, 1, 4, 4⟩ (by decide)⟩

-- ### Claim C2

/-- C2 as stated is false: at the first step of the valid constant series both
distances are 0, yet the ATH weights are `(0, 0)` rather than an even split —
the BTC weight is not even within `1/4` of `1/2`. -/
theorem C2_counterexample :
    validSeries cexSeries cexSeries ∧
    (⟨1, 1, 1, 1⟩ : StepData) ∈ mkSteps cexSeries cexSeries ∧
    dist_btc ⟨1, 1, 1, 1⟩ = 0 ∧ dist_eth ⟨1, 1, 1, 1⟩ = 0 ∧
    ¬ |(athWeights ⟨1, 1, 1, 1⟩).1 - 1 / 2| ≤ 1 / 4 := by
  refine ⟨by decide, by decide, by simp [dist_btc], by simp [dist_eth], ?_⟩
  have hw : athWeights ⟨1, 1, 1, 1⟩ = (0, 0) := by simp [athWeights, dist_btc, dist_eth]
  norm_num [hw, abs_le]

/-- C2 (amended): when both assets sit exactly at their running ATH, the
denominator equals the positive epsilon (so there is no division by zero and
the result is well defined), but the weights are exactly `(0, 0)` — a zero
allocation, not an even `0.5/0.5` split. -/
theorem C2_amended (d : StepData) (hb : dist_btc d = 0) (he : dist_eth d = 0) :
    total_dist d = eps ∧ total_dist d ≠ 0 ∧ athWeights d = (0, 0) := by
  have ht : total_dist d = eps := by unfold total_dist; rw [hb, he]; ring
  refine ⟨ht, by rw [ht]; exact ne_of_gt eps_pos, ?_⟩
  simp [athWeights, hb, he]

/-- Witness for the amended C2 at the step data `⟨1, 1, 1, 1⟩`. -/
theorem C2_amended_witness :
    (dist_btc ⟨1, 1, 1, 1⟩ = 0 ∧ dist_eth ⟨1, 1, 1, 1⟩ = 0) ∧
    (total_dist ⟨1, 1, 1, 1⟩ = eps ∧ total_dist ⟨1, 1, 1, 1⟩ ≠ 0 ∧
      athWeights ⟨1, 1, 1, 1⟩ = (0, 0)) :=
  ⟨⟨by simp [dist_btc], by simp [dist_eth]⟩,
    C2_amended ⟨1, 1, 1, 1⟩ (by simp [dist_btc]) (by simp [dist_eth])⟩

-- ### Claim C9

/-- C9: at step 0 of every valid series both ATH distances are exactly 0
(the running ATH starts at the first price), hence the ATH strategy's weights
are both 0, its month-0 purchase adds nothing to the zero holdings, and its
recorded first portfolio value is 0. -/
theorem C9_ath_step0 (pb pe : ℚ) (pbs pes : List ℚ) (B : ℚ)
    (hv : validSeries (pb :: pbs) (pe :: pes)) :
    (mkSteps (pb :: pbs) (pe :: pes)).head? = some ⟨pb, pe, pb, pe⟩ ∧
    dist_btc ⟨pb, pe, pb, pe⟩ = 0 ∧ dist_eth ⟨pb, pe, pb, pe⟩ = 0 ∧
    athWeights ⟨pb, pe, pb, pe⟩ = (0, 0) ∧
    buy B (athWeights ⟨pb, pe, pb, pe⟩) ⟨pb, pe, pb, pe⟩ ⟨0, 0⟩ = ⟨0, 0⟩ ∧
    ((simulate athWeights B (pb :: pbs) (pe :: pes)).head?).map Prod.fst = some ⟨0, 0⟩ ∧
    (valueSeries athWeights B (pb :: pbs) (pe :: pes)).head? = some 0 := by
  have hpb : 0 < pb := hv.2.1 pb (by simp)
  have hpe : 0 < pe := hv.2.2 pe (by simp)
  have hdb : dist_btc ⟨pb, pe, pb, pe⟩ = 0 := by
    simp [dist_btc, div_self (ne_of_gt hpb)]
  have hde : dist_eth ⟨pb, pe, pb, pe⟩ = 0 := by
    simp [dist_eth, div_self (ne_of_gt hpe)]
  have hw : athWeights ⟨pb, pe, pb, pe⟩ = (0, 0) := by
    simp [athWeights, hdb, hde]
  have hbuy : buy B (athWeights ⟨pb, pe, pb, pe⟩) ⟨pb, pe, pb, pe⟩ ⟨0, 0⟩ = ⟨0, 0⟩ := by
    simp [buy, hw]
  have hsim : simulate athWeights B (pb :: pbs) (pe :: pes) =
      (⟨0, 0⟩, valueAt ⟨0, 0⟩ ⟨pb, pe, pb, pe⟩) ::
        runStrategy athWeights B ⟨0, 0⟩ (stepsOf pbs pes (accumMax pb pbs) (accumMax pe pes)) := by
    unfold simulate mkSteps athAcc
    simp only [stepsOf, runStrategy, hbuy]
  refine ⟨rfl, hdb, hde, hw, hbuy, ?_, ?_⟩
  · rw [hsim]; rfl
  · unfold valueSeries
    rw [hsim]
    simp [valueAt]

/-- Witness for C9 at the valid series `[2, 1]`, `[3, 1]` with budget 500. -/
theorem C9_ath_step0_witness :
    validSeries [2, 1] [3, 1] ∧
    ((mkSteps [2, 1] [3, 1]).head? = some ⟨2, 3, 2, 3⟩ ∧
      dist_btc ⟨2, 3, 2, 3⟩ = 0 ∧ dist_eth ⟨2, 3, 2, 3⟩ = 0 ∧
      athWeights ⟨2, 3, 2, 3⟩ = (0, 0) ∧
      buy 500 (athWeights ⟨2, 3, 2, 3⟩) ⟨2, 3, 2, 3⟩ ⟨0, 0⟩ = ⟨0, 0⟩ ∧
      ((simulate athWeights 500 [2, 1] [3, 1]).head?).map Prod.fst = some ⟨0, 0⟩ ∧
      (valueSeries athWeights 500 [2, 1] [3, 1]).head? = some 0) :=
  ⟨by decide, C9_ath_step0 2 3 [1] [1] 500 (by decide)⟩

-- ### Simulation structure lemmas

theorem runStrategy_length (w : StepData → ℚ × ℚ) (B : ℚ) :
    ∀ (ds : List StepData) (h : Holding), (runStrategy w B h ds).length = ds.length := by
  intro ds
  induction ds with
  | nil => intro h; rfl
  | cons d ds ih => intro h; simp [runStrategy, ih]

theorem stepsOf_length : ∀ (as bs cs ds : List ℚ),
    bs.length = as.length → cs.length = as.length → ds.length = as.length →
    (stepsOf as bs cs ds).length = as.length := by
  intro as
  induction as with
  | nil =>
    intro bs cs ds hb hc hd
    cases bs <;> cases cs <;> cases ds <;> simp_all [stepsOf]
  | cons a as ih =>
    intro bs cs ds hb hc hd
    cases bs with
    | nil => simp at hb
    | cons b bs =>
      cases cs with
      | nil => simp at hc
      | cons c cs =>
        cases ds with
        | nil => simp at hd
        | cons e ds =>
          simp only [stepsOf, List.length_cons] at *
          rw [ih bs cs ds (by omega) (by omega) (by omega)]

theorem mkSteps_length (pbs pes : List ℚ) (hlen : pbs.length = pes.length) :
    (mkSteps pbs pes).length = pbs.length := by
  unfold mkSteps
  exact stepsOf_length pbs pes (athAcc pbs) (athAcc pes) hlen.symm
    (athAcc_length pbs) (by rw [athAcc_length]; exact hlen.symm)

theorem stepsOf_get_prices : ∀ (as bs cs ds : List ℚ) (i : ℕ)
    (hi : i < (stepsOf as bs cs ds).length) (ha : i < as.length) (hb : i < bs.length),
    ((stepsOf as bs cs ds).get ⟨i, hi⟩).p_btc = as.get ⟨i, ha⟩ ∧
    ((stepsOf as bs cs ds).get ⟨i, hi⟩).p_eth = bs.get ⟨i, hb⟩ := by
  intro as
  induction as with
  | nil => intro bs cs ds i hi ha hb; simp [stepsOf] at hi
  | cons a as ih =>
    intro bs cs ds i hi ha hb
    cases bs with
    | nil => simp [stepsOf] at hi
    | cons b bs =>
      cases cs with
      | nil => simp [stepsOf] at hi
      | cons c cs =>
        cases ds with
        | nil => simp [stepsOf] at hi
        | cons e ds =>
          cases i with
          | zero => exact ⟨rfl, rfl⟩
          | succ i =>
            exact ih bs cs ds i (by simpa [stepsOf] using hi)
              (Nat.lt_of_succ_lt_succ ha) (Nat.lt_of_succ_lt_succ hb)

theorem runStrategy_get_snd (w : StepData → ℚ × ℚ) (B : ℚ) :
    ∀ (ds : List StepData) (h : Holding) (i : ℕ)
      (hi : i < (runStrategy w B h ds).length) (hd : i < ds.length),
    ((runStrategy w B h ds).get ⟨i, hi⟩).2 =
      valueAt ((runStrategy w B h ds).get ⟨i, hi⟩).1 (ds.get ⟨i, hd⟩) := by
  intro ds
  induction ds with
  | nil => intro h i hi hd; simp at hd
  | cons d ds ih =>
    intro h i hi hd
    cases i with
    | zero => rfl
    | succ i =>
      exact ih (buy B (w d) d h) i (by simpa [runStrategy] using hi)
        (Nat.lt_of_succ_lt_succ hd)

-- ### Claim C4

/-- C4: for every valid price series of length `n` and every weighting
strategy, the recorded value series has length exactly `n`, and at every step
`i` the recorded value equals `holding_btc[i] * p_btc[i] + holding_eth[i] *
p_eth[i]` where the holdings are those after month `i`'s purchase. -/
theorem C4_value_series (w : StepData → ℚ × ℚ) (B : ℚ) (pbs pes : List ℚ)
    (hv : validSeries pbs pes) :
    (valueSeries w B pbs pes).length = pbs.length ∧
    ∀ (i : ℕ) (hi : i < (simulate w B pbs pes).length)
      (hip : i < pbs.length) (hie : i < pes.length),
      ((simulate w B pbs pes).get ⟨i, hi⟩).2 =
        ((simulate w B pbs pes).get ⟨i, hi⟩).1.btc * pbs.get ⟨i, hip⟩ +
        ((simulate w B pbs pes).get ⟨i, hi⟩).1.eth * pes.get ⟨i, hie⟩ := by
  have hlen : (simulate w B pbs pes).length = pbs.length := by
    unfold simulate
    rw [runStrategy_length, mkSteps_length pbs pes hv.1]
  constructor
  · unfold valueSeries
    rw [List.length_map, hlen]
  · intro i hi hip hie
    have hd : i < (mkSteps pbs pes).length := by rw [mkSteps_length pbs pes hv.1]; exact hip
    have hsnd := runStrategy_get_snd w B (mkSteps pbs pes) ⟨0, 0⟩ i hi hd
    have hpr := stepsOf_get_prices pbs pes (athAcc pbs) (athAcc pes) i hd hip hie
    unfold simulate
    rw [hsnd]
    unfold valueAt mkSteps
    rw [hpr.1, hpr.2]

/-- Witness for C4 with the ATH strategy, budget 500, on the valid series
`[2, 4]`, `[1, 2]`. -/
theorem C4_value_series_witness :
    validSeries [2, 4] [1, 2] ∧
    ((valueSeries athWeights 500 [2, 4] [1, 2]).length = ([2, 4] : List ℚ).length ∧
    ∀ (i : ℕ) (hi : i < (simulate athWeights 500 [2, 4] [1, 2]).length)
      (hip : i < ([2, 4] : List ℚ).length) (hie : i < ([1, 2] : List ℚ).length),
      ((simulate athWeights 500 [2, 4] [1, 2]).get ⟨i, hi⟩).2 =
        ((simulate athWeights 500 [2, 4] [1, 2]).get ⟨i, hi⟩).1.btc *
          ([2, 4] : List ℚ).get ⟨i, hip⟩ +
        ((simulate athWeights 500 [2, 4] [1, 2]).get ⟨i, hi⟩).1.eth *
          ([1, 2] : List ℚ).get ⟨i, hie⟩) :=
  ⟨by decide, C4_value_series athWeights 500 [2, 4] [1, 2] (by decide)⟩

-- ### Strategy tags and holdings order

/-- The three strategy variants of the script. -/
inductive Strat
  | ATH
  | MC
  | EQ
deriving DecidableEq, Repr

/-- The weight function each variant uses. -/
def stratWeights : Strat → StepData → ℚ × ℚ
  | .ATH => athWeights
  | .MC => mcWeights
  | .EQ => eqWeights

/-- Componentwise order on holdings. -/
def holdLe (a b : Holding) : Prop := a.btc ≤ b.btc ∧ a.eth ≤ b.eth

instance : IsTrans Holding holdLe :=
  ⟨fun _ _ _ hab hbc => ⟨le_trans hab.1 hbc.1, le_trans hab.2 hbc.2⟩⟩

theorem stratWeights_nonneg (t : Strat) {pbs pes : List ℚ}
    (hb : ∀ p ∈ pbs, 0 < p) (he : ∀ p ∈ pes, 0 < p)
    (d : StepData) (hd : d ∈ mkSteps pbs pes) :
    0 ≤ (stratWeights t d).1 ∧ 0 ≤ (stratWeights t d).2 := by
  obtain ⟨hpb, hpe, hlb, hlee, hab, hae⟩ := mkSteps_mem hb he d hd
  have hdb : 0 ≤ dist_btc d := dist_btc_nonneg d hab hlb
  have hde : 0 ≤ dist_eth d := dist_eth_nonneg d hae hlee
  have htd : 0 < total_dist d := total_dist_pos d hdb hde
  cases t with
  | ATH => exact ⟨div_nonneg hdb htd.le, div_nonneg hde htd.le⟩
  | MC =>
    have hmc : 0 < mc_ratio d := mc_ratio_pos d hpb hpe
    have h1mc : (0 : ℚ) < 1 + mc_ratio d := by linarith
    constructor
    · show 0 ≤ 1 / (1 + mc_ratio d)
      positivity
    · show 0 ≤ 1 - 1 / (1 + mc_ratio d)
      have hle1 : 1 / (1 + mc_ratio d) ≤ 1 := by rw [div_le_one h1mc]; linarith
      linarith
  | EQ => constructor <;> norm_num [stratWeights, eqWeights]

theorem runStrategy_holdings_chain (w : StepData → ℚ × ℚ) (B : ℚ) (hB : 0 ≤ B) :
    ∀ (ds : List StepData) (h : Holding),
    (∀ d ∈ ds, 0 < d.p_btc ∧ 0 < d.p_eth ∧ 0 ≤ (w d).1 ∧ 0 ≤ (w d).2) →
    List.Chain' holdLe (h :: (runStrategy w B h ds).map Prod.fst) := by
  intro ds
  induction ds with
  | nil => intro h _; simp [runStrategy]
  | cons d ds ih =>
    intro h hall
    obtain ⟨hpb, hpe, hw1, hw2⟩ := hall d (by simp)
    have hstep : holdLe h (buy B (w d) d h) := by
      constructor
      · show h.btc ≤ h.btc + B * (w d).1 / d.p_btc
        have hx : 0 ≤ B * (w d).1 / d.p_btc := div_nonneg (mul_nonneg hB hw1) hpb.le
        linarith
      · show h.eth ≤ h.eth + B * (w d).2 / d.p_eth
        have hx : 0 ≤ B * (w d).2 / d.p_eth := div_nonneg (mul_nonneg hB hw2) hpe.le
        linarith
    simp only [runStrategy, List.map_cons]
    exact List.chain'_cons.mpr
      ⟨hstep, ih (buy B (w d) d h) (fun d2 hd2 => hall d2 (List.mem_cons_of_mem _ hd2))⟩

-- ### Claim C5

/-- C5: for every strategy and valid price series, the cumulative holdings
start at `(0, 0)` and never decrease: the chain from the zero start through
every post-purchase holding is componentwise non-decreasing, every holding is
non-negative, and holdings at later steps dominate holdings at earlier ones. -/
theorem C5_holdings_monotone (t : Strat) (B : ℚ) (hB : 0 ≤ B) (pbs pes : List ℚ)
    (hv : validSeries pbs pes) :
    List.Chain' holdLe
      ((⟨0, 0⟩ : Holding) :: (simulate (stratWeights t) B pbs pes).map Prod.fst) ∧
    (∀ h_ ∈ (simulate (stratWeights t) B pbs pes).map Prod.fst,
      0 ≤ h_.btc ∧ 0 ≤ h_.eth) ∧
    ∀ (i j : ℕ) (hij : i ≤ j)
      (hj : j < ((simulate (stratWeights t) B pbs pes).map Prod.fst).length),
      holdLe
        (((simulate (stratWeights t) B pbs pes).map Prod.fst).get
          ⟨i, lt_of_le_of_lt hij hj⟩)
        (((simulate (stratWeights t) B pbs pes).map Prod.fst).get ⟨j, hj⟩) := by
  have hall : ∀ d ∈ mkSteps pbs pes,
      0 < d.p_btc ∧ 0 < d.p_eth ∧ 0 ≤ (stratWeights t d).1 ∧ 0 ≤ (stratWeights t d).2 := by
    intro d hd
    obtain ⟨hpb, hpe, _, _, _, _⟩ := mkSteps_mem hv.2.1 hv.2.2 d hd
    obtain ⟨hw1, hw2⟩ := stratWeights_nonneg t hv.2.1 hv.2.2 d hd
    exact ⟨hpb, hpe, hw1, hw2⟩
  have hchain : List.Chain' holdLe
      ((⟨0, 0⟩ : Holding) :: (simulate (stratWeights t) B pbs pes).map Prod.fst) :=
    runStrategy_holdings_chain (stratWeights t) B hB (mkSteps pbs pes) ⟨0, 0⟩ hall
  have hpw := List.chain'_iff_pairwise.mp hchain
  rw [List.pairwise_cons] at hpw
  refine ⟨hchain, fun h_ hmem => hpw.1 h_ hmem, ?_⟩
  intro i j hij hj
  rcases eq_or_lt_of_le hij with h | h
  · subst h; exact ⟨le_refl _, le_refl _⟩
  · exact List.pairwise_iff_get.mp hpw.2 ⟨i, lt_of_le_of_lt hij hj⟩ ⟨j, hj⟩ h

/-- Witness for C5 with the market-cap strategy, budget 500, on the valid
series `[2, 4]`, `[1, 2]`. -/
theorem C5_holdings_monotone_witness :
    ((0 : ℚ) ≤ 500 ∧ validSeries [2, 4] [1, 2]) ∧
    (List.Chain' holdLe
      ((⟨0, 0⟩ : Holding) :: (simulate (stratWeights .MC) 500 [2, 4] [1, 2]).map Prod.fst) ∧
    (∀ h_ ∈ (simulate (stratWeights .MC) 500 [2, 4] [1, 2]).map Prod.fst,
      0 ≤ h_.btc ∧ 0 ≤ h_.eth) ∧
    ∀ (i j : ℕ) (hij : i ≤ j)
      (hj : j < ((simulate (stratWeights .MC) 500 [2, 4] [1, 2]).map Prod.fst).length),
      holdLe
        (((simulate (stratWeights .MC) 500 [2, 4] [1, 2]).map Prod.fst).get
          ⟨i, lt_of_le_of_lt hij hj⟩)
        (((simulate (stratWeights .MC) 500 [2, 4] [1, 2]).map Prod.fst).get ⟨j, hj⟩)) :=
  ⟨⟨by decide, by decide⟩,
    C5_holdings_monotone .MC 500 (by decide) [2, 4] [1, 2] (by decide)⟩

-- ### Claim C10

/-- C10: whenever both prices are strictly positive (and with the script's
strictly positive supply-ratio constant), the market-cap weights lie strictly
inside `(0, 1)`, so with a positive budget the strategy purchases a strictly
positive quantity of both assets at the step. -/
theorem C10_mc_weights_interior (d : StepData) (hb : 0 < d.p_btc) (he : 0 < d.p_eth)
    (B : ℚ) (hB : 0 < B) (h : Holding) :
    0 < supply_ratio_eth_to_btc ∧
    0 < (mcWeights d).1 ∧ (mcWeights d).1 < 1 ∧
    0 < (mcWeights d).2 ∧ (mcWeights d).2 < 1 ∧
    h.btc < (buy B (mcWeights d) d h).btc ∧ h.eth < (buy B (mcWeights d) d h).eth := by
  have hmc : 0 < mc_ratio d := mc_ratio_pos d hb he
  have h1mc : (0 : ℚ) < 1 + mc_ratio d := by linarith
  have hw1 : (mcWeights d).1 = 1 / (1 + mc_ratio d) := rfl
  have hw2 : (mcWeights d).2 = 1 - 1 / (1 + mc_ratio d) := rfl
  have hw1pos : 0 < (mcWeights d).1 := by rw [hw1]; positivity
  have hw1lt : (mcWeights d).1 < 1 := by
    rw [hw1, div_lt_one h1mc]; linarith
  have hw2pos : 0 < (mcWeights d).2 := by rw [hw2]; rw [hw1] at hw1lt; linarith
  have hw2lt : (mcWeights d).2 < 1 := by rw [hw2]; rw [hw1] at hw1pos; linarith
  refine ⟨supply_ratio_pos, hw1pos, hw1lt, hw2pos, hw2lt, ?_, ?_⟩
  · show h.btc < h.btc + B * (mcWeights d).1 / d.p_btc
    have : 0 < B * (mcWeights d).1 / d.p_btc := div_pos (mul_pos hB hw1pos) hb
    linarith
  · show h.eth < h.eth + B * (mcWeights d).2 / d.p_eth
    have : 0 < B * (mcWeights d).2 / d.p_eth := div_pos (mul_pos hB hw2pos) he
    linarith

/-- Witness for C10 at the step data `⟨2, 1, 4, 4⟩`, budget 500, zero holdings. -/
theorem C10_mc_weights_interior_witness :
    ((0 : ℚ) < (⟨2, 1, 4, 4⟩ : StepData).p_btc ∧ (0 : ℚ) < (⟨2, 1, 4, 4⟩ : StepData).p_eth ∧
      (0 : ℚ) < 500) ∧
    (0 < supply_ratio_eth_to_btc ∧
    0 < (mcWeights ⟨2, 1, 4, 4⟩).1 ∧ (mcWeights ⟨2, 1, 4, 4⟩).1 < 1 ∧
    0 < (mcWeights ⟨2, 1, 4, 4⟩).2 ∧ (mcWeights ⟨2, 1, 4, 4⟩).2 < 1 ∧
    (⟨0, 0⟩ : Holding).btc < (buy 500 (mcWeights ⟨2, 1, 4, 4⟩) ⟨2, 1, 4, 4⟩ ⟨0, 0⟩).btc ∧
    (⟨0, 0⟩ : Holding).eth < (buy 500 (mcWeights ⟨2, 1, 4, 4⟩) ⟨2, 1, 4, 4⟩ ⟨0, 0⟩).eth) :=
  ⟨⟨by decide, by decide, by decide⟩,
    C10_mc_weights_interior ⟨2, 1, 4, 4⟩ (by decide) (by decide) 500 (by decide) ⟨0, 0⟩⟩

-- ### Claim C8

/-- The single error condition of the core: not enough aligned monthly points. -/
inductive DataError
  | insufficientData
deriving DecidableEq, Repr

/-- Data guard plus simulation entry: models lines 19-20 of `src/main.py`
(`if len(df) < 12: raise ValueError(...)`) followed by the three-strategy
simulation.  A raised error is modelled as `Except.error`, returned to the
caller unrecovered; otherwise all three value series are produced. -/
def runPipeline (B : ℚ) (pbs pes : List ℚ) :
    Except DataError (List ℚ × List ℚ × List ℚ) :=
  if pbs.length < 12 then .error .insufficientData
  else .ok (valueSeries athWeights B pbs pes, valueSeries mcWeights B pbs pes,
    valueSeries eqWeights B pbs pes)

/-- C8: a series of exactly 12 aligned points is accepted and the simulation
proceeds (the three value series are produced), while any series of fewer than
12 points makes the pipeline stop with `insufficientData` before simulating,
the error being returned to the caller. -/
theorem C8_min_length (B : ℚ) (pbs pes : List ℚ) :
    (pbs.length = 12 → runPipeline B pbs pes =
      .ok (valueSeries athWeights B pbs pes, valueSeries mcWeights B pbs pes,
        valueSeries eqWeights B pbs pes)) ∧
    (pbs.length < 12 → runPipeline B pbs pes = .error .insufficientData) := by
  constructor
  · intro h12
    unfold runPipeline
    rw [if_neg (by omega)]
  · intro hlt
    unfold runPipeline
    rw [if_pos hlt]

/-- Witness for C8: a 12-point series is accepted, an 11-point series is
rejected. -/
theorem C8_min_length_witness :
    ((List.replicate 12 (1 : ℚ)).length = 12 ∧ (List.replicate 11 (1 : ℚ)).length < 12) ∧
    runPipeline 500 (List.replicate 12 (1 : ℚ)) (List.replicate 12 (1 : ℚ)) =
      .ok (valueSeries athWeights 500 (List.replicate 12 1) (List.replicate 12 1),
        valueSeries mcWeights 500 (List.replicate 12 1) (List.replicate 12 1),
        valueSeries eqWeights 500 (List.replicate 12 1) (List.replicate 12 1)) ∧
    runPipeline 500 (List.replicate 11 (1 : ℚ)) (List.replicate 11 (1 : ℚ)) =
      .error .insufficientData :=
  ⟨⟨by decide, by decide⟩,
    (C8_min_length 500 (List.replicate 12 1) (List.replicate 12 1)).1 (by decide),
    (C8_min_length 500 (List.replicate 11 1) (List.replicate 11 1)).2 (by decide)⟩

-- ### Claim C7

/-- `total_invested = monthly_budget * n` (line 95 of `src/main.py`). -/
def total_invested (B : ℚ) (n : ℕ) : ℚ := B * n

theorem map_getLast? {α β : Type} (f : α → β) :
    ∀ (l : List α), (l.map f).getLast? = l.getLast?.map f
  | [] => rfl
  | [_] => rfl
  | a :: b :: l => by
    rw [List.map_cons, List.map_cons, List.getLast?_cons_cons, List.getLast?_cons_cons,
      ← List.map_cons]
    exact map_getLast? f (b :: l)

theorem getLast?_cons_ne_nil {α : Type} (x : α) {l : List α} (hl : l ≠ []) :
    (x :: l).getLast? = l.getLast? := by
  cases l with
  | nil => exact absurd rfl hl
  | cons y l => exact List.getLast?_cons_cons

theorem accumMax_replicate (P : ℚ) : ∀ (n : ℕ),
    accumMax P (List.replicate n P) = List.replicate n P := by
  intro n
  induction n with
  | zero => rfl
  | succ n ih => simp [List.replicate_succ, accumMax, max_self, ih]

theorem athAcc_replicate (P : ℚ) (n : ℕ) :
    athAcc (List.replicate n P) = List.replicate n P := by
  cases n with
  | zero => rfl
  | succ n => simp [List.replicate_succ, athAcc, accumMax_replicate]

theorem stepsOf_replicate (P : ℚ) : ∀ (n : ℕ),
    stepsOf (List.replicate n P) (List.replicate n P)
      (List.replicate n P) (List.replicate n P) =
      List.replicate n ⟨P, P, P, P⟩ := by
  intro n
  induction n with
  | zero => rfl
  | succ n ih => simp [List.replicate_succ, stepsOf, ih]

theorem mkSteps_replicate (P : ℚ) (n : ℕ) :
    mkSteps (List.replicate n P) (List.replicate n P) = List.replicate n ⟨P, P, P, P⟩ := by
  unfold mkSteps
  rw [athAcc_replicate, stepsOf_replicate]

theorem runStrategy_cons (w : StepData → ℚ × ℚ) (B : ℚ) (h : Holding) (d : StepData)
    (ds : List StepData) :
    runStrategy w B h (d :: ds) =
      (buy B (w d) d h, valueAt (buy B (w d) d h) d) ::
        runStrategy w B (buy B (w d) d h) ds := rfl

theorem valueAt_buy_eq (B P : ℚ) (hP : P ≠ 0) (h : Holding) :
    valueAt (buy B (eqWeights ⟨P, P, P, P⟩) ⟨P, P, P, P⟩ h) ⟨P, P, P, P⟩ =
      valueAt h ⟨P, P, P, P⟩ + B := by
  simp only [valueAt, buy, eqWeights]
  field_simp
  ring

theorem run_eq_const (B P : ℚ) (hP : P ≠ 0) : ∀ (n : ℕ) (h : Holding),
    ((runStrategy eqWeights B h (List.replicate (n + 1) ⟨P, P, P, P⟩)).getLast?).map
        Prod.snd =
      some (valueAt h ⟨P, P, P, P⟩ + ((n : ℚ) + 1) * B) := by
  intro n
  induction n with
  | zero =>
    intro h
    simp only [List.replicate_succ, List.replicate_zero, runStrategy, List.getLast?_singleton,
      Option.map_some']
    rw [valueAt_buy_eq B P hP h]
    norm_num
  | succ m ih =>
    intro h
    have ihh := ih (buy B (eqWeights ⟨P, P, P, P⟩) ⟨P, P, P, P⟩ h)
    have hne : runStrategy eqWeights B (buy B (eqWeights ⟨P, P, P, P⟩) ⟨P, P, P, P⟩ h)
        (List.replicate (m + 1) ⟨P, P, P, P⟩) ≠ [] := by
      intro hnil
      have hlen := runStrategy_length eqWeights B
        (List.replicate (m + 1) ⟨P, P, P, P⟩)
        (buy B (eqWeights ⟨P, P, P, P⟩) ⟨P, P, P, P⟩ h)
      rw [hnil] at hlen
      simp at hlen
    rw [List.replicate_succ, runStrategy_cons, getLast?_cons_ne_nil _ hne, ihh,
      valueAt_buy_eq B P hP h]
    congr 1
    push_cast
    ring

/-- C7: on a constant price series (both assets at price `P > 0` for all `n ≥ 1`
months) the equal-weight strategy's final portfolio value equals the total
invested amount `monthlyBudget * n`. -/
theorem C7_equal_weight_constant (n : ℕ) (P B : ℚ) (hn : 0 < n) (hP : 0 < P) :
    (valueSeries eqWeights B (List.replicate n P) (List.replicate n P)).getLast? =
      some (total_invested B n) := by
  obtain ⟨m, rfl⟩ : ∃ m, n = m + 1 := ⟨n - 1, by omega⟩
  unfold valueSeries simulate
  rw [mkSteps_replicate, map_getLast?, run_eq_const B P (ne_of_gt hP) m ⟨0, 0⟩]
  unfold total_invested
  congr 1
  simp [valueAt]
  ring

/-- Witness for C7: three months at constant price 2 with budget 500 end at
total value 1500. -/
theorem C7_equal_weight_constant_witness :
    ((0 : ℕ) < 3 ∧ (0 : ℚ) < 2) ∧
    (valueSeries eqWeights 500 (List.replicate 3 (2 : ℚ))
        (List.replicate 3 (2 : ℚ))).getLast? = some (total_invested 500 3) :=
  ⟨⟨by decide, by decide⟩, C7_equal_weight_constant 3 2 500 (by decide) (by decide)⟩

-- ### Claim C6

/-- Joint state of the three strategies in the lockstep loop (the holding
dictionaries of lines 40-41, grouped per strategy). -/
structure LockState where
  ath : Holding
  mc : Holding
  eq : Holding
deriving DecidableEq, Repr

/-- One strategy's purchase inside the loop body, updating only its own
component of the joint state. -/
def applyStrat (B : ℚ) (d : StepData) : Strat → LockState → LockState
  | .ATH, s => { s with ath := buy B (athWeights d) d s.ath }
  | .MC, s => { s with mc := buy B (mcWeights d) d s.mc }
  | .EQ, s => { s with eq := buy B (eqWeights d) d s.eq }

/-- One loop iteration: the three purchases performed in the given order. -/
def lockStep (B : ℚ) (ord : List Strat) (d : StepData) (s : LockState) : LockState :=
  ord.foldl (fun t u => applyStrat B d u t) s

/-- The loop body's reference order: ATH, then market cap, then equal weight
(lines 50-70 of `src/main.py`). -/
def refOrder : List Strat := [.ATH, .MC, .EQ]

/-- The lockstep loop: each iteration applies the three purchases in the given
order, then records the three portfolio values (lines 72-75). -/
def lockRun (B : ℚ) (ord : List Strat) : LockState → List StepData → List (ℚ × ℚ × ℚ)
  | _, [] => []
  | s, d :: ds =>
    let s2 := lockStep B ord d s
    (valueAt s2.ath d, valueAt s2.mc d, valueAt s2.eq d) :: lockRun B ord s2 ds

/-- The three value series as produced by the lockstep loop from zero holdings. -/
def lockValueSeries (B : ℚ) (ord : List Strat) (pbs pes : List ℚ) : List (ℚ × ℚ × ℚ) :=
  lockRun B ord ⟨⟨0, 0⟩, ⟨0, 0⟩, ⟨0, 0⟩⟩ (mkSteps pbs pes)

theorem lockStep_ref (B : ℚ) (d : StepData) (s : LockState) :
    lockStep B refOrder d s =
      ⟨buy B (athWeights d) d s.ath, buy B (mcWeights d) d s.mc,
        buy B (eqWeights d) d s.eq⟩ := rfl

theorem lockStep_perm (B : ℚ) (ord : List Strat) (hp : ord.Perm refOrder) :
    ∀ (d : StepData) (s : LockState), lockStep B ord d s = lockStep B refOrder d s := by
  intro d s
  have hlen : ord.length = 3 := hp.length_eq
  rcases ord with _ | ⟨x, _ | ⟨y, _ | ⟨z, _ | ⟨w, tl⟩⟩⟩⟩ <;> simp at hlen
  rcases x <;> rcases y <;> rcases z <;>
    first
      | rfl
      | exact absurd hp (by decide)

theorem lockRun_congr (B : ℚ) (ord1 ord2 : List Strat)
    (hstep : ∀ d s, lockStep B ord1 d s = lockStep B ord2 d s) :
    ∀ (ds : List StepData) (s : LockState),
      lockRun B ord1 s ds = lockRun B ord2 s ds := by
  intro ds
  induction ds with
  | nil => intro s; rfl
  | cons d ds ih =>
    intro s
    simp only [lockRun]
    rw [hstep d s, ih]

theorem lockRun_proj_ath (B : ℚ) : ∀ (ds : List StepData) (s : LockState),
    (lockRun B refOrder s ds).map (fun v => v.1) =
      (runStrategy athWeights B s.ath ds).map Prod.snd := by
  intro ds
  induction ds with
  | nil => intro s; rfl
  | cons d ds ih =>
    intro s
    simp only [lockRun, runStrategy, List.map_cons, lockStep_ref]
    rw [ih]

theorem lockRun_proj_mc (B : ℚ) : ∀ (ds : List StepData) (s : LockState),
    (lockRun B refOrder s ds).map (fun v => v.2.1) =
      (runStrategy mcWeights B s.mc ds).map Prod.snd := by
  intro ds
  induction ds with
  | nil => intro s; rfl
  | cons d ds ih =>
    intro s
    simp only [lockRun, runStrategy, List.map_cons, lockStep_ref]
    rw [ih]

theorem lockRun_proj_eq (B : ℚ) : ∀ (ds : List StepData) (s : LockState),
    (lockRun B refOrder s ds).map (fun v => v.2.2) =
      (runStrategy eqWeights B s.eq ds).map Prod.snd := by
  intro ds
  induction ds with
  | nil => intro s; rfl
  | cons d ds ih =>
    intro s
    simp only [lockRun, runStrategy, List.map_cons, lockStep_ref]
    rw [ih]

/-- C6: evaluating the three strategies in any permuted order inside each step
of the lockstep loop yields exactly the value series of the reference order,
and each projected series equals the one computed by running that strategy
alone — no strategy's output depends on the other strategies' state. -/
theorem C6_strategy_independence (B : ℚ) (pbs pes : List ℚ) (ord : List Strat)
    (hord : ord.Perm refOrder) :
    lockValueSeries B ord pbs pes = lockValueSeries B refOrder pbs pes ∧
    (lockValueSeries B ord pbs pes).map (fun v => v.1) =
      valueSeries athWeights B pbs pes ∧
    (lockValueSeries B ord pbs pes).map (fun v => v.2.1) =
      valueSeries mcWeights B pbs pes ∧
    (lockValueSeries B ord pbs pes).map (fun v => v.2.2) =
      valueSeries eqWeights B pbs pes := by
  have heq : lockValueSeries B ord pbs pes = lockValueSeries B refOrder pbs pes :=
    lockRun_congr B ord refOrder (lockStep_perm B ord hord) (mkSteps pbs pes)
      ⟨⟨0, 0⟩, ⟨0, 0⟩, ⟨0, 0⟩⟩
  refine ⟨heq, ?_, ?_, ?_⟩
  · rw [heq]
    exact lockRun_proj_ath B (mkSteps pbs pes) ⟨⟨0, 0⟩, ⟨0, 0⟩, ⟨0, 0⟩⟩
  · rw [heq]
    exact lockRun_proj_mc B (mkSteps pbs pes) ⟨⟨0, 0⟩, ⟨0, 0⟩, ⟨0, 0⟩⟩
  · rw [heq]
    exact lockRun_proj_eq B (mkSteps pbs pes) ⟨⟨0, 0⟩, ⟨0, 0⟩, ⟨0, 0⟩⟩

/-- Witness for C6 with the reversed order on the series `[2, 4]`, `[1, 2]`. -/
theorem C6_strategy_independence_witness :
    ([Strat.EQ, Strat.MC, Strat.ATH] : List Strat).Perm refOrder ∧
    (lockValueSeries 500 [Strat.EQ, Strat.MC, Strat.ATH] [2, 4] [1, 2] =
      lockValueSeries 500 refOrder [2, 4] [1, 2] ∧
    (lockValueSeries 500 [Strat.EQ, Strat.MC, Strat.ATH] [2, 4] [1, 2]).map
        (fun v => v.1) = valueSeries athWeights 500 [2, 4] [1, 2] ∧
    (lockValueSeries 500 [Strat.EQ, Strat.MC, Strat.ATH] [2, 4] [1, 2]).map
        (fun v => v.2.1) = valueSeries mcWeights 500 [2, 4] [1, 2] ∧
    (lockValueSeries 500 [Strat.EQ, Strat.MC, Strat.ATH] [2, 4] [1, 2]).map
        (fun v => v.2.2) = valueSeries eqWeights 500 [2, 4] [1, 2]) :=
  ⟨by decide, C6_strategy_independence 500 [2, 4] [1, 2] [Strat.EQ, Strat.MC, Strat.ATH]
    (by decide)⟩
